import Mathlib

/-!
Verification development for the OMGP model (`GPclust/OMGP.py`).

The repository implements an Overlapping Mixture of Gaussian Processes model.
We give a shallow embedding of its numerical core over exact rational
arithmetic (`ℚ` stands for the floating-point reals; all linear algebra is
exact).  External collaborators that the source treats as capabilities —
the kernel objects (only their covariance matrices `kern.K(X)` enter the
computations), the collapsed-mixture base (`phi`, `mixing_prop_bound()`,
`H`, their gradients) and the numeric primitives `np.log` / `np.pi` — are
modelled as fields of the state / an environment, exactly as the source
consumes them.

Source correspondences are noted on every definition.
-/

set_option maxHeartbeats 1000000

open Matrix

/-- The additive floor `1e-6` that the source applies to `phi` in several
precision constructions. -/
def floorC : ℚ := 1 / 1000000

/-- Model of `GPy.util.linalg.tdot(a) = a @ a.T`. -/
def tdot {n d : ℕ} (A : Matrix (Fin n) (Fin d) ℚ) : Matrix (Fin n) (Fin n) ℚ :=
  A * Aᵀ

/-- Exact linear solve `A⁻¹ B` via the adjugate; models both
`linalg.cho_solve(linalg.cho_factor(A), B)` and `np.linalg.solve(A, B)`
in exact arithmetic (both return the solution of `A X = B` when `A` is
invertible). -/
def solveLin {n m : ℕ} (A : Matrix (Fin n) (Fin n) ℚ)
    (B : Matrix (Fin n) (Fin m) ℚ) : Matrix (Fin n) (Fin m) ℚ :=
  (A.det)⁻¹ • (A.adjugate * B)

/-- Exact symmetric-positive-definite inverse; models `pdinv(A)[0]`. -/
def pdinvM {n : ℕ} (A : Matrix (Fin n) (Fin n) ℚ) : Matrix (Fin n) (Fin n) ℚ :=
  (A.det)⁻¹ • A.adjugate

theorem solveLin_eq_inv_mul {n m : ℕ} (A : Matrix (Fin n) (Fin n) ℚ)
    (B : Matrix (Fin n) (Fin m) ℚ) : solveLin A B = A⁻¹ * B := by
  rw [solveLin, Matrix.inv_def, Ring.inverse_eq_inv', Matrix.smul_mul]

theorem pdinvM_eq_inv {n : ℕ} (A : Matrix (Fin n) (Fin n) ℚ) : pdinvM A = A⁻¹ := by
  rw [pdinvM, Matrix.inv_def, Ring.inverse_eq_inv']

/-- `solveLin` really solves the system when the matrix is invertible. -/
theorem mul_solveLin {n m : ℕ} (A : Matrix (Fin n) (Fin n) ℚ)
    (B : Matrix (Fin n) (Fin m) ℚ) (h : A.det ≠ 0) :
    A * solveLin A B = B := by
  rw [solveLin, Matrix.mul_smul, ← Matrix.mul_assoc, Matrix.mul_adjugate,
    Matrix.smul_mul, Matrix.one_mul, smul_smul, inv_mul_cancel₀ h, one_smul]

/-- The state of an `OMGP` model, as read by the numerical core.

* `kernK i` models `self.kern[i].K(self.X)` (the kernels are external
  capabilities; only these covariance matrices enter the core).
* `Y`, `phi`, `variance` model `self.Y`, `self.phi`, `self.variance`.
* `mixingPropBound`, `H`, `mixingPropBoundGrad`, `Hgrad` model the external
  collapsed-mixture terms `self.mixing_prop_bound()`, `self.H`,
  `self.mixing_prop_bound_grad()`, `self.Hgrad`.
* `varianceGradient` and `kernGradDLdK` are the gradient registers written
  by `update_kern_grads` (`self.variance.gradient` and the `dL_dK` matrix
  passed to `kern.update_gradients_full`). -/
structure OMGPState (N D K : ℕ) where
  kernK : Fin K → Matrix (Fin N) (Fin N) ℚ
  Y : Matrix (Fin N) (Fin D) ℚ
  phi : Matrix (Fin N) (Fin K) ℚ
  variance : ℚ
  mixingPropBound : ℚ
  H : ℚ
  mixingPropBoundGrad : Matrix (Fin N) (Fin K) ℚ
  Hgrad : Matrix (Fin N) (Fin K) ℚ
  varianceGradient : ℚ
  kernGradDLdK : Fin K → Matrix (Fin N) (Fin N) ℚ

/-- Abstract numeric primitives consumed by `bound`: `np.log` and `np.pi`. -/
structure NumEnv where
  log : ℚ → ℚ
  pi : ℚ

variable {N D K M : ℕ}

/-- `B_inv = np.diag(1. / ((self.phi[:, i] + 1e-6) / self.variance))`
as built in `bound` (OMGP.py line 94). -/
def B_inv_bound (s : OMGPState N D K) (i : Fin K) : Matrix (Fin N) (Fin N) ℚ :=
  Matrix.diagonal fun n => 1 / ((s.phi n i + floorC) / s.variance)

/-- The spec's algebraic form of the floored precision matrix,
`diag(variance / (phi[:,i] + 1e-6))`; used only to state claims. -/
def B_inv_specFloored (s : OMGPState N D K) (i : Fin K) : Matrix (Fin N) (Fin N) ℚ :=
  Matrix.diagonal fun n => s.variance / (s.phi n i + floorC)

/-- The spec's algebraic form of the unfloored precision matrix,
`diag(variance / phi[:,i])`; used only to state claims. -/
def B_inv_specUnfloored (s : OMGPState N D K) (i : Fin K) : Matrix (Fin N) (Fin N) ℚ :=
  Matrix.diagonal fun n => s.variance / s.phi n i

theorem B_inv_bound_eq_specFloored (s : OMGPState N D K) (i : Fin K) :
    B_inv_bound s i = B_inv_specFloored s i := by
  simp only [B_inv_bound, B_inv_specFloored, one_div_div]

/-- The `α` computed by `bound`:
`alpha = linalg.cho_solve(linalg.cho_factor(K + B_inv), self.Y)` (line 97). -/
def alphaBound (s : OMGPState N D K) (i : Fin K) : Matrix (Fin N) (Fin D) ℚ :=
  solveLin (s.kernK i + B_inv_bound s i) s.Y

/-- One iteration of the `for i, kern in enumerate(self.kern)` loop of
`bound` (OMGP.py lines 92-105): the three `GP_bound += ...` statements.
`np.linalg.slogdet(A)[1]` is `log |det A|`, modelled as `env.log |A.det|`. -/
def boundStep (env : NumEnv) (s : OMGPState N D K) (acc : ℚ) (i : Fin K) : ℚ :=
  let Km := s.kernK i
  let B_inv := B_inv_bound s i
  let alph := solveLin (Km + B_inv) s.Y
  let acc1 := acc + (-(1 : ℚ) / 2) * (s.Yᵀ * alph).trace
  let acc2 := acc1 + (-(1 : ℚ) / 2) * env.log |(Km + B_inv).det|
  acc2 + (-(1 : ℚ) / 2) * ∑ n, s.phi n i * env.log (2 * env.pi * s.variance)

/-- `OMGP.bound` (lines 85-107): the accumulation loop starting from
`GP_bound = 0.0`, followed by
`return GP_bound + self.mixing_prop_bound() + self.H`. -/
def bound (env : NumEnv) (s : OMGPState N D K) : ℚ :=
  (List.finRange K).foldl (boundStep env s) 0 + s.mixingPropBound + s.H

/-- The closed per-component term of the bound, for restating the loop as a
sum over components. -/
def boundTerm (env : NumEnv) (s : OMGPState N D K) (i : Fin K) : ℚ :=
  (-(1 : ℚ) / 2) * (s.Yᵀ * alphaBound s i).trace
    + (-(1 : ℚ) / 2) * env.log |(s.kernK i + B_inv_bound s i).det|
    + (-(1 : ℚ) / 2) * ∑ n, s.phi n i * env.log (2 * env.pi * s.variance)

theorem foldl_add_eq {α : Type} (f : α → ℚ) (l : List α) : ∀ c : ℚ,
    l.foldl (fun a i => a + f i) c = c + (l.map f).sum := by
  induction l with
  | nil => intro c; simp
  | cons x t ih =>
    intro c
    simp only [List.foldl_cons, List.map_cons, List.sum_cons]
    rw [ih]
    ring

theorem bound_eq_sum_boundTerm (env : NumEnv) (s : OMGPState N D K) :
    bound env s = (∑ i, boundTerm env s i) + s.mixingPropBound + s.H := by
  have hstep : boundStep env s = fun acc i => acc + boundTerm env s i := by
    funext acc i
    simp only [boundStep, boundTerm, alphaBound]
    ring
  rw [bound, hstep, foldl_add_eq, Fin.sum_univ_def, zero_add]

/-- C1: `bound()` returns, for each component `i`, the data-fit term
`-1/2 * trace(Yᵀ αᵢ)` with `αᵢ` the solution of `(Kᵢ + B_inv_i) α = Y` and
`B_inv_i = diag(variance / (phi[:,i] + 1e-6))`, plus the penalty
`-1/2 * log |Kᵢ + B_inv_i|`, plus the weighted constant
`-1/2 * Σ_n phi[n,i] * log(2 π variance)`, all summed over components, and
adds the external mixing-proportion bound and the entropy `H`. -/
theorem bound_componentwise (env : NumEnv) (s : OMGPState N D K)
    (hvar : 0 < s.variance)
    (hdet : ∀ i, (s.kernK i + B_inv_specFloored s i).det ≠ 0) :
    (∀ i, (s.kernK i + B_inv_specFloored s i) * alphaBound s i = s.Y) ∧
    bound env s =
      (∑ i, ((-(1 : ℚ) / 2) * (s.Yᵀ * alphaBound s i).trace
        + (-(1 : ℚ) / 2) * env.log |(s.kernK i + B_inv_specFloored s i).det|
        + (-(1 : ℚ) / 2) * ∑ n, s.phi n i * env.log (2 * env.pi * s.variance)))
      + s.mixingPropBound + s.H := by
  constructor
  · intro i
    rw [alphaBound, B_inv_bound_eq_specFloored]
    exact mul_solveLin _ _ (hdet i)
  · rw [bound_eq_sum_boundTerm]
    congr 1
    congr 1
    refine Finset.sum_congr rfl fun i _ => ?_
    rw [boundTerm, B_inv_bound_eq_specFloored]

/-- `B_inv = np.diag(1. / (self.phi[:, i] / self.variance))` as built in the
per-kernel `dL_dK` loop of `update_kern_grads` (OMGP.py line 59).
Note: no `1e-6` floor here. -/
def B_inv_kernloop (s : OMGPState N D K) (i : Fin K) : Matrix (Fin N) (Fin N) ℚ :=
  Matrix.diagonal fun n => 1 / (s.phi n i / s.variance)

/-- `dL_dK = .5*(tdot(alpha) - K_B_inv)` of the first loop of
`update_kern_grads` (lines 57-64), with
`alpha = cho_solve(cho_factor(K + B_inv), Y)` and `K_B_inv = pdinv(K + B_inv)[0]`. -/
def dL_dK_kernloop (s : OMGPState N D K) (i : Fin K) : Matrix (Fin N) (Fin N) ℚ :=
  (1 / 2 : ℚ) • (tdot (solveLin (s.kernK i + B_inv_kernloop s i) s.Y)
    - pdinvM (s.kernK i + B_inv_kernloop s i))

/-- `B_inv = np.diag(1. / ((self.phi[:, i] + 1e-6) / self.variance))` as
built in the variance-gradient loop of `update_kern_grads` (line 75). -/
def B_inv_varloop (s : OMGPState N D K) (i : Fin K) : Matrix (Fin N) (Fin N) ℚ :=
  Matrix.diagonal fun n => 1 / ((s.phi n i + floorC) / s.variance)

/-- `dL_dB = tdot(alpha) - K_B_inv` of the variance-gradient loop
(lines 76-78), with `alpha = np.linalg.solve(K + B_inv, Y)`. -/
def dL_dB_var (s : OMGPState N D K) (i : Fin K) : Matrix (Fin N) (Fin N) ℚ :=
  tdot (solveLin (s.kernK i + B_inv_varloop s i) s.Y)
    - pdinvM (s.kernK i + B_inv_varloop s i)

/-- `grad_B_inv = np.diag(1. / (self.phi[:, i] + 1e-6))` (line 79). -/
def grad_B_inv_var (s : OMGPState N D K) (i : Fin K) : Matrix (Fin N) (Fin N) ℚ :=
  Matrix.diagonal fun n => 1 / (s.phi n i + floorC)

/-- The per-component increment
`0.5 * np.trace(np.dot(dL_dB, grad_B_inv))` (line 81). -/
def varTerm (s : OMGPState N D K) (i : Fin K) : ℚ :=
  (1 / 2 : ℚ) * (dL_dB_var s i * grad_B_inv_var s i).trace

/-- One iteration of the variance-gradient loop (lines 71-83): the pair is
(`grad_Lm_variance` accumulator, current `self.variance.gradient` register);
the register is assigned the running sum inside the loop body (line 83). -/
def varLoopStep (s : OMGPState N D K) (p : ℚ × ℚ) (i : Fin K) : ℚ × ℚ :=
  let acc := p.1 + varTerm s i
  (acc, acc)

/-- The variance-gradient loop of `update_kern_grads` (lines 70-83), started
from `grad_Lm_variance = 0.0` and the previous gradient-register value. -/
def varLoop (s : OMGPState N D K) (g0 : ℚ) : ℚ × ℚ :=
  (List.finRange K).foldl (varLoopStep s) (0, g0)

/-- `OMGP.update_kern_grads` (lines 53-83) as a state transformer: the first
loop passes `dL_dK` to each kernel's `update_gradients_full` (modelled by the
`kernGradDLdK` registers), the second loop writes `self.variance.gradient`. -/
def updateKernGradsOp (s : OMGPState N D K) : OMGPState N D K :=
  { s with
    kernGradDLdK := fun i => dL_dK_kernloop s i
    varianceGradient := (varLoop s s.varianceGradient).2 }

theorem varLoop_fold (s : OMGPState N D K) (l : List (Fin K)) : ∀ a g : ℚ,
    l ≠ [] →
    l.foldl (varLoopStep s) (a, g)
      = (a + (l.map (varTerm s)).sum, a + (l.map (varTerm s)).sum) := by
  induction l with
  | nil => intro a g h; exact absurd rfl h
  | cons x t ih =>
    intro a g h
    simp only [List.foldl_cons, List.map_cons, List.sum_cons]
    have hstep : varLoopStep s (a, g) x = (a + varTerm s x, a + varTerm s x) := rfl
    rw [hstep]
    rcases eq_or_ne t [] with ht | ht
    · subst ht
      simp [add_assoc]
    · rw [ih _ _ ht, add_assoc]

/-- C6: assigning the running sum `grad_Lm_variance` to the variance
gradient register inside the per-component loop yields, after the loop, the
same value as the running sum itself (assign-once-after-loop), and that
value is `Σ_i 1/2 * trace(dL_dB_i * diag(1 / (phi[:,i] + 1e-6)))`. -/
theorem variance_grad_assign_equiv (s : OMGPState N D K) (hK : 0 < K) :
    (updateKernGradsOp s).varianceGradient = (varLoop s s.varianceGradient).1 ∧
    (updateKernGradsOp s).varianceGradient
      = ∑ i, (1 / 2 : ℚ) * (dL_dB_var s i * grad_B_inv_var s i).trace := by
  have hne : List.finRange K ≠ [] := by
    intro h
    have := List.length_finRange K
    rw [h] at this
    simp at this
    omega
  have hfold := varLoop_fold s (List.finRange K) 0 s.varianceGradient hne
  have h2 : (varLoop s s.varianceGradient)
      = (((List.finRange K).map (varTerm s)).sum, ((List.finRange K).map (varTerm s)).sum) := by
    rw [varLoop, hfold, zero_add]
  constructor
  · show (varLoop s s.varianceGradient).2 = (varLoop s s.varianceGradient).1
    rw [h2]
  · show (varLoop s s.varianceGradient).2 = _
    rw [h2, Fin.sum_univ_def]
    rfl

/-- The denominator `(self.phi[:, i] + 1e-6) / self.variance` in the `B_inv`
construction of `vb_grad_natgrad` (line 119). -/
def vbDenomBinv (s : OMGPState N D K) (n : Fin N) (i : Fin K) : ℚ :=
  (s.phi n i + floorC) / s.variance

/-- The denominator `self.phi[n, i] ** 2 + 1e-6` in the one-hot perturbation
of `vb_grad_natgrad` (line 126). -/
def vbDenomPerturb (s : OMGPState N D K) (n : Fin N) (i : Fin K) : ℚ :=
  s.phi n i ^ 2 + floorC

/-- `B_inv = np.diag(1. / ((self.phi[:, i] + 1e-6) / self.variance))` as
built in `vb_grad_natgrad` (line 119). -/
def B_inv_vb (s : OMGPState N D K) (i : Fin K) : Matrix (Fin N) (Fin N) ℚ :=
  Matrix.diagonal fun n => 1 / vbDenomBinv s n i

/-- `dL_dB = tdot(alpha) - K_B_inv` of `vb_grad_natgrad` (lines 120-122),
with `alpha = np.linalg.solve(K + B_inv, Y)` and `K_B_inv = pdinv(K + B_inv)[0]`. -/
def dL_dB_vb (s : OMGPState N D K) (i : Fin K) : Matrix (Fin N) (Fin N) ℚ :=
  tdot (solveLin (s.kernK i + B_inv_vb s i) s.Y)
    - pdinvM (s.kernK i + B_inv_vb s i)

/-- The one-hot perturbation built in the inner loop of `vb_grad_natgrad`
(lines 125-126): `grad_B_inv = np.zeros_like(B_inv)` followed by
`grad_B_inv[n, n] = -self.variance / (self.phi[n, i] ** 2 + 1e-6)`. -/
def grad_B_inv_vb (s : OMGPState N D K) (n : Fin N) (i : Fin K) :
    Matrix (Fin N) (Fin N) ℚ :=
  Matrix.stdBasisMatrix n n (-s.variance / vbDenomPerturb s n i)

/-- `grad_Lm[n, i] = 0.5 * np.trace(np.dot(dL_dB, grad_B_inv))` (line 127). -/
def grad_Lm (s : OMGPState N D K) : Matrix (Fin N) (Fin K) ℚ :=
  Matrix.of fun n i => (1 / 2 : ℚ) * (dL_dB_vb s i * grad_B_inv_vb s n i).trace

/-- The closed form of the raw gradient entry asserted by the spec:
`0.5 * dL_dB[n, n] * (-variance / (phi[n, i]^2 + 1e-6))`.  Stated from the
spec's words, to be compared with the trace-based `grad_Lm`. -/
def grad_Lm_closedSpec (s : OMGPState N D K) : Matrix (Fin N) (Fin K) ℚ :=
  Matrix.of fun n i =>
    (1 / 2 : ℚ) * (dL_dB_vb s i n n * (-s.variance / vbDenomPerturb s n i))

/-- `grad_phi = grad_Lm + self.mixing_prop_bound_grad() + self.Hgrad`
(line 129). -/
def grad_phi (s : OMGPState N D K) : Matrix (Fin N) (Fin K) ℚ :=
  grad_Lm s + s.mixingPropBoundGrad + s.Hgrad

/-- `natgrad = grad_phi - np.sum(self.phi * grad_phi, 1)[:, None]`
(line 131): broadcast subtraction of the row-wise dot product. -/
def natgrad (s : OMGPState N D K) : Matrix (Fin N) (Fin K) ℚ :=
  Matrix.of fun n i => grad_phi s n i - ∑ k, s.phi n k * grad_phi s n k

/-- `grad = natgrad * self.phi` (line 132): elementwise product. -/
def vbGrad (s : OMGPState N D K) : Matrix (Fin N) (Fin K) ℚ :=
  Matrix.of fun n i => natgrad s n i * s.phi n i

/-- `OMGP.vb_grad_natgrad` (lines 109-134): returns the pair
`(grad, natgrad)`; the source returns both row-major flattened, a bijective
reindexing that none of the claims depend on. -/
def vb_grad_natgrad (s : OMGPState N D K) :
    Matrix (Fin N) (Fin K) ℚ × Matrix (Fin N) (Fin K) ℚ :=
  (vbGrad s, natgrad s)

theorem trace_mul_stdBasis (A : Matrix (Fin N) (Fin N) ℚ) (n : Fin N) (v : ℚ) :
    (A * Matrix.stdBasisMatrix n n v).trace = A n n * v := by
  rw [Matrix.trace]
  rw [Finset.sum_eq_single n]
  · simp [Matrix.diag]
  · intro b _ hb
    simp [Matrix.diag, Matrix.StdBasisMatrix.mul_right_apply_of_ne, hb]
  · intro h
    exact absurd (Finset.mem_univ n) h

/-- C5: for every state, every data point `n` and component `i`, the
trace-based raw gradient entry `1/2 * trace(dL_dB * G)` — with `G` zero
except `G[n,n] = -variance / (phi[n,i]^2 + 1e-6)` — equals the closed form
`1/2 * dL_dB[n,n] * (-variance / (phi[n,i]^2 + 1e-6))`, so the two
computation strategies produce the same raw gradient matrix. -/
theorem grad_Lm_trace_eq_closed (s : OMGPState N D K) :
    grad_Lm s = grad_Lm_closedSpec s := by
  funext n i
  show (1 / 2 : ℚ) * (dL_dB_vb s i * grad_B_inv_vb s n i).trace = _
  rw [grad_B_inv_vb, trace_mul_stdBasis]
  rfl

/-- C4: for every `phi` with non-negative rows summing exactly to `1`, the
natural gradient returned by `vb_grad_natgrad` satisfies, for every row `n`,
`Σ_k phi[n,k] * natgrad[n,k] = 0` in exact arithmetic: the simplex
projection removes the component of the gradient along each row of `phi`. -/
theorem natgrad_row_orthogonal (s : OMGPState N D K)
    (hpos : ∀ n k, 0 ≤ s.phi n k) (hsum : ∀ n, ∑ k, s.phi n k = 1)
    (n : Fin N) :
    ∑ k, s.phi n k * (vb_grad_natgrad s).2 n k = 0 := by
  show ∑ k, s.phi n k * natgrad s n k = 0
  simp only [natgrad, Matrix.of_apply, mul_sub]
  rw [Finset.sum_sub_distrib, ← Finset.sum_mul, hsum n, one_mul, sub_self]

/-- C10: for every `phi` with non-negative entries and strictly positive
variance, both denominators occurring in `vb_grad_natgrad` — the
`(phi[:,i] + 1e-6) / variance` of the `B_inv` construction and the
`phi[n,i]^2 + 1e-6` of the one-hot perturbation — are strictly positive, so
no division by zero occurs even when an assignment probability is exactly 0. -/
theorem vb_denominators_pos (s : OMGPState N D K)
    (hpos : ∀ n k, 0 ≤ s.phi n k) (hvar : 0 < s.variance)
    (n : Fin N) (i : Fin K) :
    0 < vbDenomBinv s n i ∧ 0 < vbDenomPerturb s n i := by
  have hfl : (0 : ℚ) < floorC := by norm_num [floorC]
  constructor
  · exact div_pos (add_pos_of_nonneg_of_pos (hpos n i) hfl) hvar
  · exact add_pos_of_nonneg_of_pos (sq_nonneg _) hfl

/-- `bound()` as a state transformer: its body (OMGP.py lines 85-107) only
binds local variables (`GP_bound`, `K`, `B_inv`, `alpha`), never assigns to
any attribute of `self`, so the transformer returns the state unchanged
together with the computed value. -/
def boundOp (env : NumEnv) (s : OMGPState N D K) : OMGPState N D K × ℚ :=
  (s, bound env s)

/-- `vb_grad_natgrad()` as a state transformer: its body (lines 109-134)
only binds local variables (`grad_Lm`, `K`, `I`, `B_inv`, `alpha`,
`K_B_inv`, `dL_dB`, `grad_B_inv`, `grad_phi`, `natgrad`, `grad`), never
assigns to any attribute of `self`. -/
def vbGradNatgradOp (s : OMGPState N D K) :
    OMGPState N D K × (Matrix (Fin N) (Fin K) ℚ × Matrix (Fin N) (Fin K) ℚ) :=
  (s, vb_grad_natgrad s)

/-- C9: calling `bound()` or `vb_grad_natgrad()` leaves the whole model
state unchanged — `Y`, `phi`, the kernel list (its covariance matrices) and
the variance value are the same after the call as before it; both
operations only read state and return values.  (Contrast
`updateKernGradsOp`, which does write the gradient registers.) -/
theorem bound_vb_frame (env : NumEnv) (s : OMGPState N D K) :
    (boundOp env s).1 = s ∧ (boundOp env s).1.Y = s.Y ∧
    (boundOp env s).1.phi = s.phi ∧ (boundOp env s).1.kernK = s.kernK ∧
    (boundOp env s).1.variance = s.variance ∧
    (vbGradNatgradOp s).1 = s ∧ (vbGradNatgradOp s).1.Y = s.Y ∧
    (vbGradNatgradOp s).1.phi = s.phi ∧
    (vbGradNatgradOp s).1.kernK = s.kernK ∧
    (vbGradNatgradOp s).1.variance = s.variance :=
  ⟨rfl, rfl, rfl, rfl, rfl, rfl, rfl, rfl, rfl, rfl⟩

/-- The kernel-object state handled by `do_computations`: the kernel list
`self.kern` and the registration order of trainable parameters
(`link_parameter` / `unlink_parameter` on the parameterization base). -/
structure KernState (κ : Type) where
  kern : List κ
  linked : List κ

/-- `OMGP.do_computations` (OMGP.py lines 38-51).

* `if len(self.kern) < self.K:` append ONE copy of the last kernel
  (`self.kern.append(self.kern[-1].copy())`) and link it
  (`self.link_parameter(self.kern[-1])`); `self.kern[-1]` on an empty list
  raises `IndexError`, modelled by `none`.
* `if len(self.kern) > self.K:` unlink every kernel in `self.kern[self.K:]`
  and truncate `self.kern = self.kern[:self.K]`.

`copy` models `.copy()` (an independent parameter copy); `Kc` is `self.K`. -/
def do_computations {κ : Type} [DecidableEq κ] (copy : κ → κ) (Kc : ℕ)
    (s : KernState κ) : Option (KernState κ) :=
  let step1 : Option (KernState κ) :=
    if s.kern.length < Kc then
      match s.kern.getLast? with
      | none => none
      | some last =>
        some { kern := s.kern ++ [copy last], linked := s.linked ++ [copy last] }
    else some s
  match step1 with
  | none => none
  | some t =>
    if Kc < t.kern.length then
      some { kern := t.kern.take Kc,
             linked := (t.kern.drop Kc).foldl (fun l k => l.erase k) t.linked }
    else some t

/-- C3 counterexample: with one kernel and target `K = 3`, a single
invocation of `do_computations` leaves the kernel list with 2 entries, not
exactly `K = 3` as the claim states. -/
theorem do_computations_not_target_cex :
    (do_computations (fun k : ℕ => k) 3 ⟨[5], [5]⟩).map
        (fun t => t.kern.length) = some 2
      ∧ (2 : ℕ) ≠ 3 := by
  constructor
  · rfl
  · decide

/-- C3 (amended): one invocation of `do_computations` with a nonempty
kernel list of length `L` and target `K` leaves the list with exactly
`min K L` entries when `L ≥ K` (truncating, and unlinking the dropped
entries), but with `L + 1` entries when `L < K` — it appends a single copy
of the last kernel and links it, so the list reaches exactly `K` entries
only when `L = K - 1`. -/
theorem do_computations_length {κ : Type} [DecidableEq κ] (copy : κ → κ)
    (Kc : ℕ) (s : KernState κ) (last : κ)
    (hlast : s.kern.getLast? = some last) :
    ∃ t, do_computations copy Kc s = some t
      ∧ t.kern.length
          = (if s.kern.length < Kc then s.kern.length + 1
             else min Kc s.kern.length)
      ∧ (s.kern.length < Kc →
          t.kern = s.kern ++ [copy last] ∧ t.linked = s.linked ++ [copy last])
      ∧ (¬ s.kern.length < Kc → t.kern = s.kern.take Kc) := by
  rcases Nat.lt_or_ge s.kern.length Kc with hlt | hge
  · refine ⟨⟨s.kern ++ [copy last], s.linked ++ [copy last]⟩, ?_, ?_, ?_, ?_⟩
    · have h2 : ¬ Kc < (s.kern ++ [copy last]).length := by
        simp only [List.length_append, List.length_cons, List.length_nil]
        omega
      simp only [do_computations, if_pos hlt, hlast, h2, if_false, if_neg h2]
    · simp only [List.length_append, List.length_cons, List.length_nil,
        if_pos hlt]
    · intro _; exact ⟨rfl, rfl⟩
    · intro h; exact absurd hlt h
  · have hnlt : ¬ s.kern.length < Kc := Nat.not_lt.mpr hge
    rcases Nat.lt_or_ge Kc s.kern.length with hlt2 | hge2
    · refine ⟨⟨s.kern.take Kc,
          (s.kern.drop Kc).foldl (fun l k => l.erase k) s.linked⟩, ?_, ?_, ?_, ?_⟩
      · simp only [do_computations, if_neg hnlt, if_pos hlt2]
      · simp only [List.length_take, if_neg hnlt]
      · intro h; exact absurd h hnlt
      · intro _; rfl
    · have heq : Kc = s.kern.length := by omega
      refine ⟨s, ?_, ?_, ?_, ?_⟩
      · have h2 : ¬ Kc < s.kern.length := by omega
        simp only [do_computations, if_neg hnlt, if_neg h2]
      · rw [if_neg hnlt]; omega
      · intro h; exact absurd h hnlt
      · intro _
        rw [heq, List.take_length]

/-- `B_inv = np.diag(1. / (self.phi[:, i] / self.variance))` as built in
`predict` (OMGP.py line 145).  Note: no `1e-6` floor here. -/
def B_inv_predict (s : OMGPState N D K) (i : Fin K) : Matrix (Fin N) (Fin N) ℚ :=
  Matrix.diagonal fun n => 1 / (s.phi n i / s.variance)

/-- `OMGP.predict(Xnew, i)` (lines 136-152).  The kernel evaluations are
external capabilities: `kx` models `kern.K(self.X, Xnew)` and `kxx` models
`kern.K(Xnew, Xnew)`.  The mean is
`mu = kx.T.dot(np.linalg.solve(K + B_inv, self.Y))` and the variance is
`va = self.variance + kxx - kx.T.dot(np.linalg.solve(K + B_inv, kx))`
(the scalar `self.variance` broadcasts over the entries). -/
def predictOp (s : OMGPState N D K) (i : Fin K)
    (kx : Matrix (Fin N) (Fin M) ℚ) (kxx : Matrix (Fin M) (Fin M) ℚ) :
    Matrix (Fin M) (Fin D) ℚ × Matrix (Fin M) (Fin M) ℚ :=
  let Km := s.kernK i
  let B_inv := B_inv_predict s i
  let mu := kxᵀ * solveLin (Km + B_inv) s.Y
  let va := Matrix.of fun a b =>
    s.variance + kxx a b - (kxᵀ * solveLin (Km + B_inv) kx) a b
  (mu, va)

theorem B_inv_predict_eq_specUnfloored (s : OMGPState N D K) (i : Fin K) :
    B_inv_predict s i = B_inv_specUnfloored s i := by
  simp only [B_inv_predict, B_inv_specUnfloored, one_div_div]

/-- C7: `predict(Xnew, i)` returns
`mean = K(X,Xnew)ᵀ (Kᵢ + B_inv_i)⁻¹ Y` and
`variance = variance + K(Xnew,Xnew) - K(X,Xnew)ᵀ (Kᵢ + B_inv_i)⁻¹ K(X,Xnew)`,
both via a direct linear solve, with `B_inv_i = diag(variance / phi[:,i])`
built from the unfloored `phi` (no `1e-6` term). -/
theorem predict_formula (s : OMGPState N D K) (i : Fin K)
    (kx : Matrix (Fin N) (Fin M) ℚ) (kxx : Matrix (Fin M) (Fin M) ℚ)
    (hdet : (s.kernK i + B_inv_specUnfloored s i).det ≠ 0) :
    (s.kernK i + B_inv_specUnfloored s i)
        * (s.kernK i + B_inv_specUnfloored s i)⁻¹ = 1 ∧
    (predictOp s i kx kxx).1
      = kxᵀ * ((s.kernK i + B_inv_specUnfloored s i)⁻¹ * s.Y) ∧
    (predictOp s i kx kxx).2
      = Matrix.of fun a b =>
          s.variance + kxx a b
            - (kxᵀ * ((s.kernK i + B_inv_specUnfloored s i)⁻¹ * kx)) a b := by
  refine ⟨?_, ?_, ?_⟩
  · exact Matrix.mul_nonsing_inv _ (isUnit_iff_ne_zero.mpr hdet)
  · show kxᵀ * solveLin (s.kernK i + B_inv_predict s i) s.Y = _
    rw [B_inv_predict_eq_specUnfloored, solveLin_eq_inv_mul]
  · show (Matrix.of fun a b =>
        s.variance + kxx a b
          - (kxᵀ * solveLin (s.kernK i + B_inv_predict s i) kx) a b) = _
    rw [B_inv_predict_eq_specUnfloored, solveLin_eq_inv_mul]

/-- C2 counterexample: in the per-kernel `dL_dK` loop of
`update_kern_grads` (OMGP.py line 59) the floor is NOT applied: at a state
with `phi = 1` and `variance = 1` the `B_inv` built there differs from the
floored form `diag(variance / (phi[:,i] + 1e-6))`, contradicting the claim
that the floor is absent only in `predict`. -/
theorem kernloop_floor_absent_cex :
    B_inv_kernloop
        (⟨fun _ => Matrix.of fun _ _ => 1, Matrix.of fun _ _ => 1,
          Matrix.of fun _ _ => 1, 1, 0, 0, 0, 0, 0, fun _ => 0⟩ :
          OMGPState 1 1 1) 0
      ≠ B_inv_specFloored
        (⟨fun _ => Matrix.of fun _ _ => 1, Matrix.of fun _ _ => 1,
          Matrix.of fun _ _ => 1, 1, 0, 0, 0, 0, 0, fun _ => 0⟩ :
          OMGPState 1 1 1) 0 := by
  intro h
  have h00 := congrFun (congrFun h 0) 0
  simp only [B_inv_kernloop, B_inv_specFloored, Matrix.diagonal_apply_eq,
    Matrix.of_apply, floorC] at h00
  norm_num at h00

/-- C2 (amended): the `1e-6` floor is applied to `phi` in the precision
constructions of `bound`, of the variance-gradient loop of
`update_kern_grads`, and of `vb_grad_natgrad` (both in `B_inv` and in the
one-hot perturbation denominator), but it is absent both in the per-kernel
`dL_dK` loop of `update_kern_grads` and in `predict`. -/
theorem floor_locations (s : OMGPState N D K) (i : Fin K) :
    B_inv_bound s i = B_inv_specFloored s i ∧
    B_inv_varloop s i = B_inv_specFloored s i ∧
    B_inv_vb s i = B_inv_specFloored s i ∧
    (∀ n, grad_B_inv_vb s n i
      = Matrix.stdBasisMatrix n n (-s.variance / (s.phi n i ^ 2 + floorC))) ∧
    B_inv_kernloop s i = B_inv_specUnfloored s i ∧
    B_inv_predict s i = B_inv_specUnfloored s i := by
  refine ⟨B_inv_bound_eq_specFloored s i, ?_, ?_, fun n => rfl, ?_,
    B_inv_predict_eq_specUnfloored s i⟩
  · simp only [B_inv_varloop, B_inv_specFloored, one_div_div]
  · simp only [B_inv_vb, vbDenomBinv, B_inv_specFloored, one_div_div]
  · simp only [B_inv_kernloop, B_inv_specUnfloored, one_div_div]

/-- Shape-carrying matrices (lists of rows) for observing NumPy's shape
behaviour at the `predict` entry point. -/
abbrev Lmatrix := List (List ℚ)

/-- Error kinds a call can surface.  The first four arise inside the
NumPy linear-algebra primitives; `boundaryDim` is the eager API-boundary
dimension check that the spec claims (no code path produces it). -/
inductive NpError where
  | broadcast
  | dotShape
  | solveShape
  | singular
  | boundaryDim
deriving DecidableEq

/-- `np.diag(v)`: the square diagonal matrix of a vector. -/
def ldiag (v : List ℚ) : Lmatrix :=
  (List.range v.length).map fun i =>
    (List.range v.length).map fun j => if i = j then v.getD i 0 else 0

/-- Entry read of a rectangular list matrix of shape `r × c` under NumPy
broadcasting: an axis of size 1 is stretched, i.e. indexed at 0. -/
def lbGet (A : Lmatrix) (r c i j : ℕ) : ℚ :=
  (A.getD (if r = 1 then 0 else i) []).getD (if c = 1 then 0 else j) 0

/-- Elementwise binary operation on 2-D arrays with NumPy's broadcasting
rule: along each axis the sizes must be equal or one of them must be 1
(which is then stretched); otherwise NumPy raises a broadcast error.  The
result has the elementwise maximum shape. -/
def lbroadcast (f : ℚ → ℚ → ℚ) (A B : Lmatrix) : Except NpError Lmatrix :=
  let ra := A.length
  let ca := (A.headD []).length
  let rb := B.length
  let cb := (B.headD []).length
  if (ra == rb || ra == 1 || rb == 1) && (ca == cb || ca == 1 || cb == 1) then
    .ok ((List.range (max ra rb)).map fun i =>
      (List.range (max ca cb)).map fun j =>
        f (lbGet A ra ca i j) (lbGet B rb cb i j))
  else .error .broadcast

/-- Elementwise matrix addition (`K + B_inv`), with NumPy broadcasting. -/
def ladd (A B : Lmatrix) : Except NpError Lmatrix :=
  lbroadcast (fun x y => x + y) A B

/-- Elementwise matrix subtraction, with NumPy broadcasting. -/
def lsub (A B : Lmatrix) : Except NpError Lmatrix :=
  lbroadcast (fun x y => x - y) A B

/-- Sanity check of the broadcast model against NumPy: a 1×1 array added to
a 2×2 array broadcasts (no error), stretching the single entry. -/
theorem ladd_broadcast_size_one :
    ladd [[5]] [[1, 0], [0, 1]] = .ok [[6, 5], [5, 6]] := by
  norm_num [ladd, lbroadcast, lbGet, List.range_succ]

/-- Sanity check: a 1×1 kernel matrix added to the 3×3 diagonal built from a
length-3 `phi` column broadcasts successfully in NumPy (the error of such a
run surfaces only later, in the dot product), and the model agrees. -/
theorem ladd_size_one_mismatch_ok :
    ladd [[2]] (ldiag [1, 1, 1])
      = .ok [[3, 2, 2], [2, 3, 2], [2, 2, 3]] := by
  norm_num [ladd, lbroadcast, lbGet, ldiag, List.range_succ]

/-- A broadcast failure needs a row-count mismatch with neither row count
equal to 1. -/
theorem lbroadcast_row_mismatch (f : ℚ → ℚ → ℚ) (A B : Lmatrix)
    (h1 : A.length ≠ B.length) (h2 : A.length ≠ 1) (h3 : B.length ≠ 1) :
    lbroadcast f A B = .error .broadcast := by
  have hrow : (A.length == B.length || A.length == 1 || B.length == 1)
      = false := by
    simp only [Bool.or_eq_false_iff, beq_eq_false_iff_ne, ne_eq]
    exact ⟨⟨h1, h2⟩, h3⟩
  simp only [lbroadcast, hrow, Bool.false_and]
  rfl

/-- Scalar + matrix broadcast (`self.variance + kxx`), always well formed. -/
def laddScalar (c : ℚ) (A : Lmatrix) : Lmatrix :=
  A.map fun r => r.map fun x => c + x

/-- `A.T` for a rectangular list matrix. -/
def ltranspose (A : Lmatrix) : Lmatrix :=
  (List.range (A.headD []).length).map fun j => A.map fun r => r.getD j 0

/-- Dot product of two equally long rows. -/
def ldotRow (r c : List ℚ) : ℚ :=
  ((r.zip c).map fun q => q.1 * q.2).sum

/-- `a.dot(b)` on 2-D arrays: requires the inner dimensions to agree,
otherwise NumPy raises a shape error. -/
def ldot (A B : Lmatrix) : Except NpError Lmatrix :=
  if A.all (fun r => r.length == B.length) then
    .ok (A.map fun r => (ltranspose B).map fun c => ldotRow r c)
  else .error .dotShape

/-- Read a list matrix into a `Fin`-indexed matrix of the stated shape. -/
def listToMat (A : Lmatrix) (n m : ℕ) : Matrix (Fin n) (Fin m) ℚ :=
  Matrix.of fun i j => (A.getD i []).getD j 0

/-- Write a `Fin`-indexed matrix back to a list matrix. -/
def matToList {n m : ℕ} (Mt : Matrix (Fin n) (Fin m) ℚ) : Lmatrix :=
  (List.finRange n).map fun i => (List.finRange m).map fun j => Mt i j

/-- `np.linalg.solve(A, B)`: requires `A` square and `B` with matching
leading dimension (else a shape error), raises on a singular matrix, and
otherwise returns the exact solution. -/
def lsolve (A B : Lmatrix) : Except NpError Lmatrix :=
  let n := A.length
  if (A.all fun r => r.length == n) && (B.length == n) then
    let An := listToMat A n n
    if An.det = 0 then .error .singular
    else .ok (matToList (solveLin An (listToMat B n (B.headD []).length)))
  else .error .solveShape

/-- `OMGP.predict` (lines 136-152) at the shape-observing level.  `Km`, `kx`
and `kxx` are the external kernel evaluations `kern.K(X)`, `kern.K(X, Xnew)`
and `kern.K(Xnew, Xnew)`; `phiCol` is the column `self.phi[:, i]`.  The body
performs NO dimension validation of its own: it goes straight into
`B_inv` construction, `K + B_inv`, the solves and the dot products, and any
shape inconsistency surfaces as an error from those primitives. -/
def predictL (Km kx kxx : Lmatrix) (phiCol : List ℚ) (variance : ℚ)
    (Y : Lmatrix) : Except NpError (Lmatrix × Lmatrix) := do
  let B_inv := ldiag (phiCol.map fun p => 1 / (p / variance))
  let KB ← ladd Km B_inv
  let sol ← lsolve KB Y
  let mu ← ldot (ltranspose kx) sol
  let sol2 ← lsolve KB kx
  let tmp ← ldot (ltranspose kx) sol2
  let va ← lsub (laddScalar variance kxx) tmp
  pure (mu, va)

/-- C8 counterexample: calling `predict` with a `phi` column of length 3
against a 2×2 kernel matrix (a shape inconsistency with `N = 2`) does not
raise an eager dimension-mismatch error at the API boundary — the code
proceeds into the linear algebra and the mismatch surfaces there, as a
broadcast failure of the matrix addition `K + B_inv`. -/
theorem predict_no_boundary_check_cex :
    predictL [[1, 0], [0, 1]] [[1, 0], [0, 1]] [[1, 0], [0, 1]]
        [1, 1, 1] 1 [[1], [0]]
      = .error .broadcast
      ∧ NpError.broadcast ≠ NpError.boundaryDim := by
  constructor
  · rfl
  · decide

/-- C8 (amended): `predict` performs no dimension validation at the API
boundary.  Whenever the `phi` column length differs from the kernel-matrix
row count and neither is 1 (so NumPy broadcasting cannot reconcile them),
the call proceeds into the linear algebra and fails there, with the
broadcast error of the matrix addition `K + B_inv`; in the remaining,
size-1 broadcastable mismatches the addition succeeds and the error
surfaces still later, inside the solve / dot-product primitives (see
`ladd_size_one_mismatch_ok`) — never as the claimed eager boundary check. -/
theorem predict_shape_error_from_linalg (Km kx kxx : Lmatrix)
    (phiCol : List ℚ) (variance : ℚ) (Y : Lmatrix)
    (h1 : Km.length ≠ phiCol.length) (h2 : Km.length ≠ 1)
    (h3 : phiCol.length ≠ 1) :
    predictL Km kx kxx phiCol variance Y = .error .broadcast := by
  have hlen : (ldiag (phiCol.map fun p => 1 / (p / variance))).length
      = phiCol.length := by
    simp [ldiag]
  have hadd : ladd Km (ldiag (phiCol.map fun p => 1 / (p / variance)))
      = .error .broadcast := by
    rw [ladd]
    refine lbroadcast_row_mismatch _ _ _ ?_ h2 ?_
    · rw [hlen]; exact h1
    · rw [hlen]; exact h3
  show (ladd Km (ldiag (phiCol.map fun p => 1 / (p / variance)))).bind _
      = .error .broadcast
  rw [hadd]
  rfl

/-- A concrete one-point, one-component, one-output model state
(`N = D = K = 1`, `phi = 1`, `variance = 1`, unit kernel matrix) used to
instantiate the theorems with hypotheses. -/
def sC : OMGPState 1 1 1 :=
  ⟨fun _ => Matrix.of fun _ _ => 1, Matrix.of fun _ _ => 1,
    Matrix.of fun _ _ => 1, 1, 0, 0, 0, 0, 0, fun _ => 0⟩

/-- A concrete numeric environment (the identity as `log`, `3` as `pi`). -/
def envC : NumEnv := ⟨fun x => x, 3⟩

/-- A concrete 1×1 cross-covariance `kern.K(X, Xnew)`. -/
def kxC : Matrix (Fin 1) (Fin 1) ℚ := Matrix.of fun _ _ => 1

/-- A concrete 1×1 test covariance `kern.K(Xnew, Xnew)`. -/
def kxxC : Matrix (Fin 1) (Fin 1) ℚ := Matrix.of fun _ _ => 1

theorem bound_componentwise_witness :
    (0 : ℚ) < sC.variance ∧
    (∀ i, (sC.kernK i + B_inv_specFloored sC i).det ≠ 0) ∧
    ((∀ i, (sC.kernK i + B_inv_specFloored sC i) * alphaBound sC i = sC.Y) ∧
      bound envC sC =
        (∑ i, ((-(1 : ℚ) / 2) * (sC.Yᵀ * alphaBound sC i).trace
          + (-(1 : ℚ) / 2) * envC.log |(sC.kernK i + B_inv_specFloored sC i).det|
          + (-(1 : ℚ) / 2) * ∑ n, sC.phi n i * envC.log (2 * envC.pi * sC.variance)))
        + sC.mixingPropBound + sC.H) := by
  have hvar : (0 : ℚ) < sC.variance := by norm_num [sC]
  have hdet : ∀ i, (sC.kernK i + B_inv_specFloored sC i).det ≠ 0 := by
    intro i
    rw [Matrix.det_fin_one]
    simp only [sC, B_inv_specFloored, Matrix.add_apply, Matrix.of_apply,
      Matrix.diagonal_apply_eq, floorC]
    norm_num
  exact ⟨hvar, hdet, bound_componentwise envC sC hvar hdet⟩

theorem do_computations_length_witness :
    ([7, 8, 9] : List ℕ).getLast? = some 9 ∧
    (∃ t, do_computations (fun k : ℕ => k) 2 (⟨[7, 8, 9], []⟩ : KernState ℕ)
        = some t
      ∧ t.kern.length
          = (if ([7, 8, 9] : List ℕ).length < 2
             then ([7, 8, 9] : List ℕ).length + 1
             else min 2 ([7, 8, 9] : List ℕ).length)
      ∧ (([7, 8, 9] : List ℕ).length < 2 →
          t.kern = [7, 8, 9] ++ [9] ∧ t.linked = ([] : List ℕ) ++ [9])
      ∧ (¬ ([7, 8, 9] : List ℕ).length < 2 →
          t.kern = ([7, 8, 9] : List ℕ).take 2)) := by
  have h : ([7, 8, 9] : List ℕ).getLast? = some 9 := rfl
  exact ⟨h, do_computations_length (fun k => k) 2 ⟨[7, 8, 9], []⟩ 9 h⟩

theorem natgrad_row_orthogonal_witness :
    (∀ n k, 0 ≤ sC.phi n k) ∧ (∀ n, ∑ k, sC.phi n k = 1) ∧
    ∑ k, sC.phi 0 k * (vb_grad_natgrad sC).2 0 k = 0 := by
  have h1 : ∀ n k, 0 ≤ sC.phi n k := by
    intro n k
    norm_num [sC]
  have h2 : ∀ n : Fin 1, ∑ k, sC.phi n k = 1 := by
    intro n
    simp [sC, Fin.sum_univ_one]
  exact ⟨h1, h2, natgrad_row_orthogonal sC h1 h2 0⟩

theorem variance_grad_assign_witness :
    0 < 1 ∧
    ((updateKernGradsOp sC).varianceGradient
        = (varLoop sC sC.varianceGradient).1 ∧
      (updateKernGradsOp sC).varianceGradient
        = ∑ i, (1 / 2 : ℚ) * (dL_dB_var sC i * grad_B_inv_var sC i).trace) :=
  ⟨by decide, variance_grad_assign_equiv sC (by decide)⟩

theorem predict_formula_witness :
    ((sC.kernK 0 + B_inv_specUnfloored sC 0).det ≠ 0) ∧
    ((sC.kernK 0 + B_inv_specUnfloored sC 0)
        * (sC.kernK 0 + B_inv_specUnfloored sC 0)⁻¹ = 1 ∧
      (predictOp sC 0 kxC kxxC).1
        = kxCᵀ * ((sC.kernK 0 + B_inv_specUnfloored sC 0)⁻¹ * sC.Y) ∧
      (predictOp sC 0 kxC kxxC).2
        = Matrix.of fun a b =>
            sC.variance + kxxC a b
              - (kxCᵀ * ((sC.kernK 0 + B_inv_specUnfloored sC 0)⁻¹ * kxC)) a b) := by
  have hdet : (sC.kernK 0 + B_inv_specUnfloored sC 0).det ≠ 0 := by
    rw [Matrix.det_fin_one]
    simp only [sC, B_inv_specUnfloored, Matrix.add_apply, Matrix.of_apply,
      Matrix.diagonal_apply_eq]
    norm_num
  exact ⟨hdet, predict_formula sC 0 kxC kxxC hdet⟩

theorem predict_shape_error_witness :
    (([[1, 0], [0, 1]] : Lmatrix).length ≠ ([1, 1, 1] : List ℚ).length) ∧
    (([[1, 0], [0, 1]] : Lmatrix).length ≠ 1) ∧
    (([1, 1, 1] : List ℚ).length ≠ 1) ∧
    predictL [[1, 0], [0, 1]] [[1]] [[1]] [1, 1, 1] 1 [[1], [0]]
      = .error .broadcast := by
  have h1 : ([[1, 0], [0, 1]] : Lmatrix).length ≠ ([1, 1, 1] : List ℚ).length := by
    decide
  have h2 : ([[1, 0], [0, 1]] : Lmatrix).length ≠ 1 := by decide
  have h3 : ([1, 1, 1] : List ℚ).length ≠ 1 := by decide
  exact ⟨h1, h2, h3, predict_shape_error_from_linalg _ _ _ _ _ _ h1 h2 h3⟩

theorem vb_denominators_pos_witness :
    (∀ n k, 0 ≤ sC.phi n k) ∧ (0 : ℚ) < sC.variance ∧
    (0 < vbDenomBinv sC 0 0 ∧ 0 < vbDenomPerturb sC 0 0) := by
  have h1 : ∀ (n : Fin 1) (k : Fin 1), 0 ≤ sC.phi n k := by
    intro n k
    norm_num [sC]
  have h2 : (0 : ℚ) < sC.variance := by norm_num [sC]
  exact ⟨h1, h2, vb_denominators_pos sC h1 h2 0 0⟩
